import Mathlib

/-!
Verification of the GOST R 34.10-2012 digital-signature implementations in this
repository (main.py, main1.py, main_v2.py … main_v6.py) against their
natural-language specification.

The Python sources are shallowly embedded: Python big integers become `Int`
(Python's `%` and `//` on a positive divisor agree with Lean's `Int.emod` and
`Int.ediv`; where a divisor may be negative, `Int.fmod`/`Int.fdiv` match
Python's sign conventions), curve points `(x, y) | None` become
`Option (Int × Int)`, and a Python function that can raise an exception
returns `Option α` (with `none` for the raise).  `while` loops are embedded
with an explicit structural fuel argument chosen at the call site to be
provably sufficient, so that every definition is executable.

The module-level curve constants of each variant are collected in a
`CurveParams` record that is passed explicitly to every operation, matching
the specification's data model.
-/

/-- A curve parameter bundle: prime modulus `p`, coefficients `a`, `b`,
base point `G`, group order `q` — the module-level constants of the
Python sources. -/
structure CurveParams where
  p : Nat
  a : Int
  b : Int
  G : Int × Int
  q : Nat

/-- An affine point, a pair of Python integers. -/
abbrev Pt := Int × Int

/-- A point as the Python sources represent it: `None` (infinity) or a pair. -/
abbrev PtM := Option Pt

namespace MainPy

/-- The body of `main.py`'s `inverse_modulo` `while low > 1` loop.  `fuel` is
a structural bound on the number of iterations; the initial `low` strictly
decreases each round, so `fuel := low.toNat` always suffices. -/
def invLoop : Nat → Int → Int → Int → Int → Int
  | 0, a, _, _, _ => a
  | fuel + 1, a, b, low, high =>
    if 1 < low then invLoop fuel (b - a * (high / low)) a (high % low) low else a

/-- `main.py`, `inverse_modulo(value, modulus)`: iterative extended Euclid.
Raises (`none`) exactly when `value == 0`. -/
def inverse_modulo (value modulus : Int) : Option Int :=
  if value = 0 then none
  else some (invLoop (value % modulus).toNat 1 0 (value % modulus) modulus % modulus)

/-- `main.py`, `curve_point_sum(p1, p2)`: the affine group law.  The outer
`Option` is the exception monad: `inverse_modulo` raises when its first
argument is the literal integer `0`. -/
def curve_point_sum (pr : CurveParams) (p1 p2 : PtM) : Option PtM :=
  match p1, p2 with
  | none, _ => some p2
  | _, none => some p1
  | some (x1, y1), some (x2, y2) =>
    if x1 = x2 ∧ (y1 + y2) % (pr.p : Int) = 0 then some none
    else
      match (if (x1, y1) = (x2, y2) then
               (inverse_modulo (2 * y1) (pr.p : Int)).map
                 (fun i => (3 * x1 * x1 + pr.a) * i % (pr.p : Int))
             else
               (inverse_modulo (x2 - x1) (pr.p : Int)).map
                 (fun i => (y2 - y1) * i % (pr.p : Int))) with
      | none => none
      | some gradient =>
        let x_new := (gradient * gradient - x1 - x2) % (pr.p : Int)
        let y_new := (gradient * (x1 - x_new) - y1) % (pr.p : Int)
        some (some (x_new, y_new))

/-- The `while factor > 0` loop of `main.py`'s `multiply_point`, with
structural fuel (the factor halves each round, so `factor.toNat` suffices). -/
def mulLoop (pr : CurveParams) : Nat → PtM → PtM → Int → Option PtM
  | 0, current, _, factor => if 0 < factor then none else some current
  | fuel + 1, current, temp, factor =>
    if 0 < factor then do
      let current' ← if factor % 2 = 1 then curve_point_sum pr current temp else some current
      let temp' ← curve_point_sum pr temp temp
      mulLoop pr fuel current' temp' (factor / 2)
    else some current

/-- `main.py`, `multiply_point(factor, point)`: double-and-add.  Note that the
factor is not reduced modulo the group order. -/
def multiply_point (pr : CurveParams) (factor : Int) (point : PtM) : Option PtM :=
  mulLoop pr factor.toNat none point factor

/-- One iteration of `main.py`'s `generate_signature` retry loop, as a
function of the drawn nonce `k`.  `some none` is a failed attempt (the Python
loop draws again), `some (some (r, s))` is the returned signature. -/
def signAttempt (pr : CurveParams) (digest d k : Int) : Option (Option (Int × Int)) := do
  let hash_val := digest % (pr.q : Int)
  let hash_val := if hash_val = 0 then 1 else hash_val
  let temp_point ← multiply_point pr k (some pr.G)
  match temp_point with
  | none => some none
  | some tp =>
    let r_val := tp.1 % (pr.q : Int)
    if r_val = 0 then some none
    else
      let s_val := (r_val * d + k * hash_val) % (pr.q : Int)
      if s_val ≠ 0 then some (some (r_val, s_val)) else some none

/-- `main.py`'s `generate_signature` `while True` loop run against an explicit
stream of nonce draws: it returns the first successful attempt, propagates an
exception, and is still running (`some none`) if every supplied draw failed. -/
def signLoop (pr : CurveParams) (digest d : Int) : List Int → Option (Option (Int × Int))
  | [] => some none
  | k :: ks =>
    match signAttempt pr digest d k with
    | none => none
    | some none => signLoop pr digest d ks
    | some (some rs) => some (some rs)

/-- `main.py`, `check_signature(data, signature, open_key)`, with the digest
integer of the data passed directly. -/
def check_signature (pr : CurveParams) (digest : Int) (sig : Int × Int) (open_key : PtM) :
    Option Bool :=
  if ¬(1 ≤ sig.1 ∧ sig.1 < (pr.q : Int) ∧ 1 ≤ sig.2 ∧ sig.2 < (pr.q : Int)) then some false
  else
    let hash_val := digest % (pr.q : Int)
    let hash_val := if hash_val = 0 then 1 else hash_val
    match inverse_modulo hash_val (pr.q : Int) with
    | none => none
    | some inverse_hash => do
      let u1 := sig.2 * inverse_hash % (pr.q : Int)
      let u2 := -sig.1 * inverse_hash % (pr.q : Int)
      let P1 ← multiply_point pr u1 (some pr.G)
      let P2 ← multiply_point pr u2 open_key
      let result_point ← curve_point_sum pr P1 P2
      match result_point with
      | none => some false
      | some rp => some (decide (rp.1 % (pr.q : Int) = sig.1))

/-- `main.py`, `create_keypair`, as a function of the `secrets.randbelow`
output `x` (so the secret key is `x + 1`).  There is no error path: the
public point is stored whatever `multiply_point` produces. -/
def create_keypair (pr : CurveParams) (x : Int) : Int × Option PtM :=
  (x + 1, multiply_point pr (x + 1) (some pr.G))

/-- The digest-reduction policy stated by the specification (§4.5/§4.6):
reduce modulo `q` and remap a zero residue to `1`. -/
def specDigestRemap (q : Nat) (digest : Int) : Int :=
  let e := digest % (q : Int)
  if e = 0 then 1 else e

/-- Signature attempt with the already-reduced digest value `e` supplied
directly; `signAttempt` should factor through `specDigestRemap`. -/
def signAttemptE (pr : CurveParams) (e d k : Int) : Option (Option (Int × Int)) := do
  let temp_point ← multiply_point pr k (some pr.G)
  match temp_point with
  | none => some none
  | some tp =>
    let r_val := tp.1 % (pr.q : Int)
    if r_val = 0 then some none
    else
      let s_val := (r_val * d + k * e) % (pr.q : Int)
      if s_val ≠ 0 then some (some (r_val, s_val)) else some none

/-- Verification with the already-reduced digest value `e` supplied directly;
`check_signature` should factor through `specDigestRemap`. -/
def check_signatureE (pr : CurveParams) (e : Int) (sig : Int × Int) (open_key : PtM) :
    Option Bool :=
  if ¬(1 ≤ sig.1 ∧ sig.1 < (pr.q : Int) ∧ 1 ≤ sig.2 ∧ sig.2 < (pr.q : Int)) then some false
  else
    match inverse_modulo e (pr.q : Int) with
    | none => none
    | some inverse_hash => do
      let u1 := sig.2 * inverse_hash % (pr.q : Int)
      let u2 := -sig.1 * inverse_hash % (pr.q : Int)
      let P1 ← multiply_point pr u1 (some pr.G)
      let P2 ← multiply_point pr u2 open_key
      let result_point ← curve_point_sum pr P1 P2
      match result_point with
      | none => some false
      | some rp => some (decide (rp.1 % (pr.q : Int) = sig.1))

end MainPy

namespace GostB

/-- The recursive `extended_gcd` shared verbatim by `main1.py`, `main_v2.py`
… `main_v6.py`, with structural fuel (`|b.fmod a| < |a|`, so `a.natAbs`
suffices).  `Int.fmod`/`Int.fdiv` match Python's `%`/`//` sign behaviour. -/
def egcd : Nat → Int → Int → Int × Int × Int
  | 0, _, b => (b, 0, 1)
  | fuel + 1, a, b =>
    if a = 0 then (b, 0, 1)
    else
      let r := egcd fuel (Int.fmod b a) a
      (r.1, r.2.2 - Int.fdiv b a * r.2.1, r.2.1)

/-- `extended_gcd(a, b)` of `main1.py` (and `main_v2` … `main_v6`). -/
def extended_gcd (a b : Int) : Int × Int × Int :=
  egcd (a.natAbs + 1) a b

/-- `main1.py`, `mod_inverse(a, m)`: raises (`none`) when the returned gcd is
not `1`, otherwise `(x % m + m) % m`. -/
def mod_inverse (a m : Int) : Option Int :=
  let r := extended_gcd a m
  if r.1 ≠ 1 then none else some ((r.2.1 % m + m) % m)

/-- `point_add(P, Q)` shared by `main1.py` and `main_v5.py`.  The outer
`Option` is the exception monad (a failing `mod_inverse` raises). -/
def point_add (pr : CurveParams) (P Q : PtM) : Option PtM :=
  match P, Q with
  | none, _ => some Q
  | _, none => some P
  | some (x1, y1), some (x2, y2) =>
    if x1 = x2 ∧ (y1 + y2) % (pr.p : Int) = 0 then some none
    else if (x1, y1) = (x2, y2) then
      if y1 = 0 then some none
      else match mod_inverse (2 * y1) (pr.p : Int) with
        | none => none
        | some i =>
          let lam := (3 * x1 * x1 + pr.a) * i % (pr.p : Int)
          let x3 := (lam * lam - x1 - x2) % (pr.p : Int)
          let y3 := (lam * (x1 - x3) - y1) % (pr.p : Int)
          some (some (x3, y3))
    else match mod_inverse ((x2 - x1) % (pr.p : Int)) (pr.p : Int) with
        | none => none
        | some i =>
          let lam := (y2 - y1) * i % (pr.p : Int)
          let x3 := (lam * lam - x1 - x2) % (pr.p : Int)
          let y3 := (lam * (x1 - x3) - y1) % (pr.p : Int)
          some (some (x3, y3))

/-- The `while k > 0` loop of `point_mult` in `main1.py`/`main_v5.py`. -/
def mulLoop (pr : CurveParams) : Nat → PtM → PtM → Int → Option PtM
  | 0, result, _, k => if 0 < k then none else some result
  | fuel + 1, result, temp, k =>
    if 0 < k then do
      let result' ← if k % 2 = 1 then point_add pr result temp else some result
      let temp' ← point_add pr temp temp
      mulLoop pr fuel result' temp' (k / 2)
    else some result

/-- `point_mult(k, P)` of `main1.py`/`main_v5.py`: reduces `k` modulo `q`
before the double-and-add loop. -/
def point_mult (pr : CurveParams) (k : Int) (P : PtM) : Option PtM :=
  mulLoop pr (k % (pr.q : Int)).toNat none P (k % (pr.q : Int))

/-- `main1.py`, `is_on_curve(x, y)`. -/
def is_on_curve (pr : CurveParams) (x y : Int) : Bool :=
  (y * y) % (pr.p : Int) = (x * x * x + pr.a * x + pr.b) % (pr.p : Int)

/-- Outcome of `main1.py`'s `generate_keypair`: an exception surfaced to the
caller, or a key pair. -/
inductive KeyOutcome
  | error
  | ok (d : Int) (Q : Pt)

/-- `main1.py`, `generate_keypair`, as a function of the `secrets.randbelow`
output `x` (the secret key is `d = x + 1`).  A degenerate public point and
failed on-curve checks raise, which the caller observes as an error. -/
def generate_keypair (pr : CurveParams) (x : Int) : Option KeyOutcome := do
  let d := x + 1
  let Q ← point_mult pr d (some pr.G)
  match Q with
  | none => some .error
  | some Qp =>
    if ¬ is_on_curve pr pr.G.1 pr.G.2 then some .error
    else if ¬ is_on_curve pr Qp.1 Qp.2 then some .error
    else some (.ok d Qp)

/-- One iteration of the `main_v5.py` `sign_file` retry loop, as a function
of the digest integer and the drawn nonce `k`.  The digest is reduced modulo
`q` with no zero remap (`h = int.from_bytes(...) % q`). -/
def signAttempt (pr : CurveParams) (digest d k : Int) : Option (Option (Int × Int)) := do
  let h := digest % (pr.q : Int)
  let R ← point_mult pr k (some pr.G)
  match R with
  | none => some none
  | some Rp =>
    let r := Rp.1 % (pr.q : Int)
    if r = 0 then some none
    else do
      let kinv ← mod_inverse k (pr.q : Int)
      let s := kinv * (h + d * r) % (pr.q : Int)
      if s ≠ 0 then some (some (r, s)) else some none

/-- Spec-side variant of `signAttempt` for comparison: identical except that
the digest reduction applies the zero-to-one remap required by §4.5 of the
specification ("if the reduced value is 0, remap it to 1"). -/
def signAttemptRemapped (pr : CurveParams) (digest d k : Int) :
    Option (Option (Int × Int)) := do
  let h := digest % (pr.q : Int)
  let h := if h = 0 then 1 else h
  let R ← point_mult pr k (some pr.G)
  match R with
  | none => some none
  | some Rp =>
    let r := Rp.1 % (pr.q : Int)
    if r = 0 then some none
    else do
      let kinv ← mod_inverse k (pr.q : Int)
      let s := kinv * (h + d * r) % (pr.q : Int)
      if s ≠ 0 then some (some (r, s)) else some none

end GostB

namespace V3

/-- `point_add(P, Q)` of `main_v3.py`/`main_v4.py`: like the `main1.py`
version but with explicit guards returning `None` for `y1 == 0` doubling and
for equal abscissae in the distinct-point branch. -/
def point_add (pr : CurveParams) (P Q : PtM) : Option PtM :=
  match P, Q with
  | none, _ => some Q
  | _, none => some P
  | some (x1, y1), some (x2, y2) =>
    if x1 = x2 ∧ y1 = -y2 % (pr.p : Int) then some none
    else if x1 = x2 ∧ y1 = y2 then
      if y1 = 0 then some none
      else match GostB.mod_inverse (2 * y1) (pr.p : Int) with
        | none => none
        | some i =>
          let lam := (3 * x1 * x1 + pr.a) * i % (pr.p : Int)
          let x3 := (lam * lam - x1 - x2) % (pr.p : Int)
          let y3 := (lam * (x1 - x3) - y1) % (pr.p : Int)
          some (some (x3, y3))
    else if x1 = x2 then some none
    else match GostB.mod_inverse ((x2 - x1) % (pr.p : Int)) (pr.p : Int) with
        | none => none
        | some i =>
          let lam := (y2 - y1) * i % (pr.p : Int)
          let x3 := (lam * lam - x1 - x2) % (pr.p : Int)
          let y3 := (lam * (x1 - x3) - y1) % (pr.p : Int)
          some (some (x3, y3))

/-- The `while k > 0` loop of `point_mult` in `main_v3.py`/`main_v4.py`. -/
def mulLoop (pr : CurveParams) : Nat → PtM → PtM → Int → Option PtM
  | 0, result, _, k => if 0 < k then none else some result
  | fuel + 1, result, temp, k =>
    if 0 < k then do
      let result' ← if k % 2 = 1 then point_add pr result temp else some result
      let temp' ← point_add pr temp temp
      mulLoop pr fuel result' temp' (k / 2)
    else some result

/-- `point_mult(k, P)` of `main_v3.py`/`main_v4.py`: short-circuits `k == 0`
and `P is None`, then reduces `k` modulo `q`. -/
def point_mult (pr : CurveParams) (k : Int) (P : PtM) : Option PtM :=
  if k = 0 ∨ P = none then some none
  else mulLoop pr (k % (pr.q : Int)).toNat none P (k % (pr.q : Int))

end V3

namespace V6

/-- The module-level curve constants of `main_v6.py`. -/
structure Params where
  p : Nat
  a : Int
  b : Int
  G : Int × Int
  n : Nat

/-- `main_v6.py`, `inverse_mod(a, m)`: returns `None` (not an exception) when
the gcd returned by `extended_gcd` is not `1`. -/
def inverse_mod (a m : Int) : Option Int :=
  let r := GostB.extended_gcd a m
  if r.1 ≠ 1 then none else some (r.2.1 % m)

/-- `main_v6.py`, `double_point(P)`.  Unpacking `None` raises a `TypeError`,
modeled by the outer `none`. -/
def double_point (pr : Params) (P : PtM) : Option PtM :=
  match P with
  | none => none
  | some (x0, y0) =>
    let x := x0 % (pr.p : Int)
    let y := y0 % (pr.p : Int)
    if y = 0 then some none
    else match inverse_mod (2 * y) (pr.p : Int) with
      | none => some none
      | some inv =>
        let lam := (3 * x * x + pr.a) * inv % (pr.p : Int)
        let x_r := (lam * lam - 2 * x) % (pr.p : Int)
        let y_r := (lam * (x - x_r) - y) % (pr.p : Int)
        some (some (x_r, y_r))

/-- `main_v6.py`, `add_points(P, Q)`: reduces coordinates into the field
first and returns `None` whenever `inverse_mod` fails. -/
def add_points (pr : Params) (P Q : PtM) : Option PtM :=
  match P, Q with
  | none, _ => some Q
  | _, none => some P
  | some (xp0, yp0), some (xq0, yq0) =>
    let x_p := xp0 % (pr.p : Int)
    let y_p := yp0 % (pr.p : Int)
    let x_q := xq0 % (pr.p : Int)
    let y_q := yq0 % (pr.p : Int)
    if x_p = x_q ∧ y_p ≠ y_q then some none
    else if x_p = x_q ∧ y_p = y_q then double_point pr P
    else match inverse_mod (x_q - x_p) (pr.p : Int) with
      | none => some none
      | some inv =>
        let lam := (y_q - y_p) * inv % (pr.p : Int)
        let x_r := (lam * lam - x_p - x_q) % (pr.p : Int)
        let y_r := (lam * (x_p - x_r) - y_p) % (pr.p : Int)
        some (some (x_r, y_r))

/-- The `while k:` loop of `main_v6.py`'s `multiply_point`. -/
def mulLoop (pr : Params) : Nat → PtM → PtM → Int → Option PtM
  | 0, result, _, k => if k ≠ 0 then none else some result
  | fuel + 1, result, addend, k =>
    if k ≠ 0 then do
      let result' ← if k % 2 = 1 then add_points pr result addend else some result
      let addend' ← double_point pr addend
      mulLoop pr fuel result' addend' (k / 2)
    else some result

/-- `main_v6.py`, `multiply_point(P, k)`. -/
def multiply_point (pr : Params) (P : PtM) (k : Int) : Option PtM :=
  mulLoop pr k.toNat none P k

/-- `main_v6.py`, `verify_signature(file_path, Q, r, s)`, with the digest
value `e = hash_file(file_path)` (already reduced modulo `n` by `hash_file`)
passed directly.  There is no range check on `r` or `s`. -/
def verify_signature (pr : Params) (e : Int) (Q : PtM) (r s : Int) : Option Bool :=
  match inverse_mod e (pr.n : Int) with
  | none => some false
  | some v => do
    let z1 := s * v % (pr.n : Int)
    let z2 := -r * v % (pr.n : Int)
    let P1 ← multiply_point pr (some pr.G) z1
    let P2 ← multiply_point pr Q z2
    let P ← add_points pr P1 P2
    match P with
    | none => some false
    | some Pp => some (decide (Pp.1 % (pr.n : Int) = r))

/-- `main_v6.py`, `generate_keys`, run against an explicit stream of
`random.randint(1, n-1)` draws: the `while True` loop retries until the
public point is not `None`; `some none` means every supplied draw was
rejected (the loop is still running). -/
def generate_keys (pr : Params) : List Int → Option (Option (Int × Pt))
  | [] => some none
  | d :: ds => do
    let Q ← multiply_point pr (some pr.G) d
    match Q with
    | none => generate_keys pr ds
    | some Qp => some (some (d, Qp))

end V6

/-- The curve constants of `main.py` (`PRIME`, `COEFF_A`, `COEFF_B`,
`START_POINT`, `ORDER`): the GOST R 34.10-2012 256-bit test parameter set. -/
def mainParams : CurveParams :=
  { p := 0xFFFFFFFFFFFFFFFFFFFFFFFFFFFFFFFFFFFFFFFFFFFFFFFFFFFFFFFFFFFFFD97
    a := 0xFFFFFFFFFFFFFFFFFFFFFFFFFFFFFFFFFFFFFFFFFFFFFFFFFFFFFFFFFFFFFD94
    b := 0xA6
    G := (0x1, 0x8D91E471E0989CDA27DF505A453F2B7635294F2DDF23E3B122ACC99C9E9F1E14)
    q := 0xFFFFFFFFFFFFFFFFFFFFFFFFFFFFFFFF6C611070995AD10045841B09B761B893 }

/-- The curve constants of `main1.py` (the NIST P-256 parameter set). -/
def main1Params : CurveParams :=
  { p := 0xFFFFFFFF00000001000000000000000000000000FFFFFFFFFFFFFFFFFFFFFFFF
    a := 0xFFFFFFFF00000001000000000000000000000000FFFFFFFFFFFFFFFFFFFFFFFC
    b := 0x5AC635D8AA3A93E7B3EBBD55769886BC651D06B0CC53B0F63BCE3C3E27D2604B
    G := (0x6B17D1F2E12C4247F8BCE6E563A440F277037D812DEB33A0F4A13945D898C296,
          0x4FE342E2FE1A7F9B8EE7EB4A7C0F9E162BCE33576B315ECECBB6406837BF51F5)
    q := 0xFFFFFFFF00000000FFFFFFFFFFFFFFFFBCE6FAADA7179E84F3B9CAC2FC632551 }

/-- The curve constants shared by `main_v2.py`, `main_v3.py`, `main_v4.py`
(note `q = p` in the source). -/
def v2Params : CurveParams :=
  { p := 57896044618658097711785492504343953926634992332820282019728792003956564823193
    a := 7
    b := 43308876546767276905765904595650931995942111794451039587316730224963703718511
    G := (2, 4018974056539037503335449422937059775635739389905545080690979365213431566280)
    q := 57896044618658097711785492504343953926634992332820282019728792003956564823193 }

/-- The curve constants of `main_v5.py` (same field as `main.py` but a
different, truncated-looking base-point ordinate). -/
def v5Params : CurveParams :=
  { p := 0xFFFFFFFFFFFFFFFFFFFFFFFFFFFFFFFFFFFFFFFFFFFFFFFFFFFFFFFFFFFFFD97
    a := 0xFFFFFFFFFFFFFFFFFFFFFFFFFFFFFFFFFFFFFFFFFFFFFFFFFFFFFFFFFFFFFD94
    b := 0xA6
    G := (0x1, 0x8D91E471E0980C1F5D1F4D8C5B6A8B6F7E7E3D9E0B6E6B6E7E3D9E0B6E6B6E7)
    q := 0xFFFFFFFFFFFFFFFFFFFFFFFFFFFFFFFF6C611070995AD10045841B09B761B893 }

/-- The curve constants of `main_v6.py`. -/
def v6Params : V6.Params :=
  { p := 57896044618658097711785492504343953926418782139537452191302581570759080747169
    a := 7
    b := 43308876546767276905765900574683423135711535271985780914745867236231519206471
    G := (2, 57896044618658097711785492504343953926418782139537452191302581570759080747168)
    n := 57896044618658097711785492504343953927082934583725450622380973592137631069619 }

/-- A small test curve for concrete witnesses: `y² = x³ + x + 6` over `F₁₁`,
whose group of 13 points is generated by `(2, 7)`. -/
def toyParams : CurveParams :=
  { p := 11, a := 1, b := 6, G := (2, 7), q := 13 }

/-- A second small parameter bundle whose base point `(0, 0)` is 2-torsion
under the embedded arithmetic, so small multiples hit the identity. -/
def toyTorsionParams : CurveParams :=
  { p := 7, a := 1, b := 1, G := (0, 0), q := 5 }

/-- The short Weierstrass curve over `ZMod p` described by a parameter
bundle. -/
def curveW (pr : CurveParams) : WeierstrassCurve.Affine (ZMod pr.p) :=
  { a₁ := 0, a₂ := 0, a₃ := 0, a₄ := (pr.a : ZMod pr.p), a₆ := (pr.b : ZMod pr.p) }

/-- The embedded point `P` represents the Mathlib point `P'` of `curveW pr`:
infinity corresponds to zero, and an affine pair with reduced coordinates
corresponds to the nonsingular point with the same coordinates. -/
def Reps (pr : CurveParams) : PtM → (curveW pr).Point → Prop
  | none, P' => P' = 0
  | some (x, y), P' =>
    0 ≤ x ∧ x < (pr.p : Int) ∧ 0 ≤ y ∧ y < (pr.p : Int) ∧
      ∃ h : (curveW pr).Nonsingular (x : ZMod pr.p) (y : ZMod pr.p),
        P' = WeierstrassCurve.Affine.Point.some h

/-! ## Supporting lemmas -/

/-- `main.py`'s `mulLoop` applied to the identity (`None`) base point stays at
the identity, whatever the factor, given sufficient fuel. -/
theorem MainPy.mulLoop_none :
    ∀ (pr : CurveParams) (fuel : Nat) (k : Int), k.toNat ≤ fuel →
      MainPy.mulLoop pr fuel none none k = some none := by
  intro pr fuel
  induction fuel with
  | zero =>
    intro k hk
    have hk0 : k ≤ 0 := Int.toNat_eq_zero.mp (Nat.le_zero.mp hk)
    simp [MainPy.mulLoop, Int.not_lt.mpr hk0]
  | succ fuel ih =>
    intro k hk
    by_cases h : 0 < k
    · have hcs : MainPy.curve_point_sum pr none none = some none := rfl
      have hde := Int.ediv_add_emod k 2
      have hm0 : 0 ≤ k % 2 := Int.emod_nonneg k (by norm_num)
      have hm2 : k % 2 < 2 := Int.emod_lt_of_pos k (by norm_num)
      simp only [MainPy.mulLoop, if_pos h, hcs]
      have : MainPy.mulLoop pr fuel none none (k / 2) = some none := by
        apply ih
        omega
      simp [this]
    · simp [MainPy.mulLoop, h]

/-- The `main.py` signing loop keeps running as long as every supplied nonce
draw leads to a failed attempt. -/
theorem MainPy.signLoop_all_retry (pr : CurveParams) (digest d : Int) :
    ∀ draws : List Int, (∀ k ∈ draws, MainPy.signAttempt pr digest d k = some none) →
      MainPy.signLoop pr digest d draws = some none := by
  intro draws h
  induction draws with
  | nil => rfl
  | cons k ks ih =>
    simp only [MainPy.signLoop]
    rw [h k (List.mem_cons_self k ks)]
    exact ih fun j hj => h j (List.mem_cons_of_mem k hj)

/-- The `main.py` signing loop returns the first successful attempt. -/
theorem MainPy.signLoop_first_success (pr : CurveParams) (digest d : Int) :
    ∀ (bads : List Int) (k : Int) (rest : List Int) (sig : Int × Int),
      (∀ b ∈ bads, MainPy.signAttempt pr digest d b = some none) →
      MainPy.signAttempt pr digest d k = some (some sig) →
      MainPy.signLoop pr digest d (bads ++ k :: rest) = some (some sig) := by
  intro bads
  induction bads with
  | nil =>
    intro k rest sig _ hk
    simp only [List.nil_append, MainPy.signLoop]
    rw [hk]
  | cons b bs ih =>
    intro k rest sig hb hk
    simp only [List.cons_append, MainPy.signLoop]
    rw [hb b (List.mem_cons_self b bs)]
    exact ih k rest sig (fun j hj => hb j (List.mem_cons_of_mem b hj)) hk

/-! ## Claims -/

/-- C10 (confirmed): in `main_v6.py`, the verification result depends on `s`
only through `s` modulo the group order `n`: `verify_signature` gives the
same answer for `(r, s)` and `(r, s + n)`; in particular any accepted
signature `(r, s)` stays accepted as `(r, s + n)`, whose second component
lies outside `[1, n)`. -/
theorem c10_verify_v6_s_mod_n (pr : V6.Params) (e : Int) (Q : PtM) (r s : Int) :
    V6.verify_signature pr e Q r (s + (pr.n : Int)) = V6.verify_signature pr e Q r s := by
  simp only [V6.verify_signature]
  cases h : V6.inverse_mod e (pr.n : Int) with
  | none => rfl
  | some v =>
    have hz : (s + (pr.n : Int)) * v % (pr.n : Int) = s * v % (pr.n : Int) := by
      have hexp : (s + (pr.n : Int)) * v = s * v + (pr.n : Int) * v := by ring
      rw [hexp, Int.add_mul_emod_self_left]
    simp only [hz]

set_option maxRecDepth 10000 in
/-- C2 counterexample: `main_v6.py`'s `verify_signature` accepts a signature
whose second component `s = 0` lies outside `[1, n)` (digest value `n - 1`,
public point `(1, 5)`, signature `(1, 0)`), instead of returning false for
every out-of-range `r` or `s` as the claim states. -/
theorem c2_counterexample :
    V6.verify_signature v6Params ((v6Params.n : Int) - 1) (some (1, 5)) 1 0 = some true ∧
    ¬ (1 ≤ (0 : Int)) := by
  constructor
  · decide
  · decide

/-- C2 (amended): `main.py`'s `check_signature` returns false — not an
exception — whenever `r` or `s` lies outside `[1, q)`, and `main_v6.py`'s
`verify_signature` returns false whenever the modular inverse of the digest
value does not exist; but `main_v6.py` performs no range check on `(r, s)`. -/
theorem c2_range_and_inverse_guards :
    (∀ (pr : CurveParams) (digest r s : Int) (Q : PtM),
        ¬(1 ≤ r ∧ r < (pr.q : Int) ∧ 1 ≤ s ∧ s < (pr.q : Int)) →
        MainPy.check_signature pr digest (r, s) Q = some false) ∧
    (∀ (pr : V6.Params) (e : Int) (Q : PtM) (r s : Int),
        V6.inverse_mod e (pr.n : Int) = none →
        V6.verify_signature pr e Q r s = some false) := by
  constructor
  · intro pr digest r s Q h
    simp only [MainPy.check_signature]
    rw [if_pos h]
  · intro pr e Q r s h
    simp only [V6.verify_signature, h]

/-- C2 witness: both guards exercised on concrete inputs. -/
theorem c2_witness :
    MainPy.check_signature mainParams 3 (0, 5) (some (1, 1)) = some false ∧
    V6.verify_signature v6Params 0 (some (1, 5)) 1 1 = some false :=
  ⟨c2_range_and_inverse_guards.1 mainParams 3 0 5 (some (1, 1)) (by decide),
   c2_range_and_inverse_guards.2 v6Params 0 (some (1, 5)) 1 1 (by decide)⟩

set_option maxRecDepth 10000 in
/-- C4 counterexample: the base point configured in `main_v5.py` does not
satisfy the curve equation (checked with `main1.py`'s own `is_on_curve`), so
not every configured parameter set satisfies the claimed invariant. -/
theorem c4_counterexample :
    GostB.is_on_curve v5Params v5Params.G.1 v5Params.G.2 = false := by decide

set_option maxRecDepth 10000 in
/-- C6 counterexample: in `main_v6.py`, the first drawn key `d = 5` produces
the identity public point, yet `generate_keys` silently retries and returns
the key pair from the next draw instead of failing with an error. -/
theorem c6_counterexample :
    V6.multiply_point v6Params (some v6Params.G) 5 = some none ∧
    V6.generate_keys v6Params [5, 1] = some (some (1, v6Params.G)) := by
  constructor
  · decide
  · decide

/-- C6 (amended): `main1.py` derives the private scalar `d = x + 1 ∈ [1, q-1]`
from the random draw `x ∈ [0, q-2]`, and when `Q = d·G` is the identity its
`generate_keypair` fails with an error surfaced to the caller (it takes a
single draw — no retry); `main.py`'s `create_keypair` returns the pair with
no identity check at all. -/
theorem c6_keygen_degenerate :
    (∀ (pr : CurveParams) (x : Int), 0 ≤ x → x < (pr.q : Int) - 1 →
        1 ≤ x + 1 ∧ x + 1 ≤ (pr.q : Int) - 1) ∧
    (∀ (pr : CurveParams) (x : Int),
        GostB.point_mult pr (x + 1) (some pr.G) = some none →
        GostB.generate_keypair pr x = some .error) ∧
    (∀ (pr : CurveParams) (x : Int),
        MainPy.create_keypair pr x = (x + 1, MainPy.multiply_point pr (x + 1) (some pr.G))) := by
  refine ⟨fun pr x h1 h2 => by omega, fun pr x h => ?_, fun pr x => rfl⟩
  simp only [GostB.generate_keypair, h]
  rfl

/-- C6 witness: a parameter bundle whose base point is 2-torsion under the
embedded arithmetic, so the second draw already hits the identity. -/
theorem c6_witness :
    (1 ≤ (1 : Int) + 1 ∧ (1 : Int) + 1 ≤ (toyTorsionParams.q : Int) - 1) ∧
    GostB.generate_keypair toyTorsionParams 1 = some .error :=
  ⟨c6_keygen_degenerate.1 toyTorsionParams 1 (by decide) (by decide),
   c6_keygen_degenerate.2.1 toyTorsionParams 1 (by decide)⟩

set_option maxRecDepth 100000 in
/-- C7 counterexample: `main.py`'s `multiply_point` does not reduce the
factor modulo `q`: with `k = ORDER` (so `k mod q = 0`) and the affine pair
`(0, 0)` it returns `(0, 0)`, not the identity. -/
theorem c7_counterexample :
    MainPy.multiply_point mainParams (mainParams.q : Int) (some (0, 0)) = some (some (0, 0)) ∧
    (mainParams.q : Int) % (mainParams.q : Int) = 0 := by
  constructor
  · decide
  · decide

/-- C7 (amended): scalar multiplication returns the identity for `k = 0` and
for an identity base point in `main.py`, and `main_v3.py`'s `point_mult`
(which reduces `k` modulo `q`) returns the identity whenever `k mod q = 0`;
`main.py`'s `multiply_point` does not reduce `k` and lacks that guarantee. -/
theorem c7_scalar_mult_identity :
    (∀ (pr : CurveParams) (P : PtM), MainPy.multiply_point pr 0 P = some none) ∧
    (∀ (pr : CurveParams) (k : Int), MainPy.multiply_point pr k none = some none) ∧
    (∀ (pr : CurveParams) (k : Int) (P : PtM), k % (pr.q : Int) = 0 →
        V3.point_mult pr k P = some none) := by
  refine ⟨fun pr P => rfl, fun pr k => MainPy.mulLoop_none pr k.toNat k le_rfl,
    fun pr k P h => ?_⟩
  by_cases hc : k = 0 ∨ P = none
  · simp [V3.point_mult, hc]
  · simp only [V3.point_mult, if_neg hc, h]
    rfl

/-- C7 witness: the three identity cases on the small test curve. -/
theorem c7_witness :
    MainPy.multiply_point toyParams 0 (some (2, 7)) = some none ∧
    MainPy.multiply_point toyParams 5 none = some none ∧
    V3.point_mult toyParams 13 (some (2, 7)) = some none :=
  ⟨c7_scalar_mult_identity.1 toyParams (some (2, 7)),
   c7_scalar_mult_identity.2.1 toyParams 5,
   c7_scalar_mult_identity.2.2 toyParams 13 (some (2, 7)) (by decide)⟩

/-- C8 counterexample: the `main.py` signing loop has no iteration cap: for
every proposed cap there is a draw stream of that length (all drawing the
nonce `2`, which fails with `s = 0` on the small test curve with digest `3`
and key `4`) on which the loop is still running, having neither returned a
signature nor reported an error. -/
theorem c8_counterexample :
    ¬ ∃ cap : Nat, ∀ draws : List Int, cap ≤ draws.length →
        MainPy.signLoop toyParams 3 4 draws ≠ some none := by
  rintro ⟨cap, h⟩
  apply h (List.replicate cap 2) (by simp)
  apply MainPy.signLoop_all_retry
  intro k hk
  rw [List.eq_of_mem_replicate hk]
  decide

/-- C8 (amended): the `main.py` nonce-resampling loop is an unbounded
`while True`: it returns the first successful attempt, and as long as every
draw fails it keeps running — there is no iteration cap and no error path. -/
theorem c8_sign_loop_unbounded :
    (∀ (pr : CurveParams) (digest d : Int) (draws : List Int),
        (∀ k ∈ draws, MainPy.signAttempt pr digest d k = some none) →
        MainPy.signLoop pr digest d draws = some none) ∧
    (∀ (pr : CurveParams) (digest d : Int) (bads : List Int) (k : Int) (rest : List Int)
        (sig : Int × Int),
        (∀ b ∈ bads, MainPy.signAttempt pr digest d b = some none) →
        MainPy.signAttempt pr digest d k = some (some sig) →
        MainPy.signLoop pr digest d (bads ++ k :: rest) = some (some sig)) :=
  ⟨fun pr digest d draws h => MainPy.signLoop_all_retry pr digest d draws h,
   fun pr digest d bads k rest sig hb hk =>
     MainPy.signLoop_first_success pr digest d bads k rest sig hb hk⟩

/-- C8 witness: one failing draw (`k = 2`) keeps the loop running; the loop
then returns the signature of the successful draw `k = 1`. -/
theorem c8_witness :
    MainPy.signLoop toyParams 3 4 [2] = some none ∧
    MainPy.signLoop toyParams 3 4 ([2] ++ 1 :: []) = some (some (2, 11)) :=
  ⟨c8_sign_loop_unbounded.1 toyParams 3 4 [2]
      (fun k hk => by rw [List.mem_singleton.mp hk]; decide),
   c8_sign_loop_unbounded.2 toyParams 3 4 [2] 1 [] (2, 11)
      (fun k hk => by rw [List.mem_singleton.mp hk]; decide) (by decide)⟩

set_option maxRecDepth 10000 in
/-- C9 counterexample: `main_v6.py`'s `add_points` is not commutative: for
the affine pairs `(1, 0)` and `(2, 1)` (coordinates in `[0, p)`) one order
produces an affine sum while the swapped order returns the identity, because
`inverse_mod` fails on the negative difference `1 - 2`. -/
theorem c9_counterexample :
    V6.add_points v6Params (some (2, 1)) (some (1, 0)) ≠
      V6.add_points v6Params (some (1, 0)) (some (2, 1)) := by decide

set_option maxRecDepth 10000 in
/-- C5 counterexample: `main_v5.py`'s signing applies no zero-to-one remap to
the reduced digest: for a digest divisible by `q` (with `d = 5`, nonce
`k = 1`) it signs with `e = 0`, producing `s = 5`, whereas the remapped
policy of the claim produces `s = 6`. -/
theorem c5_counterexample :
    GostB.signAttempt v5Params (v5Params.q : Int) 5 1 = some (some (1, 5)) ∧
    GostB.signAttemptRemapped v5Params (v5Params.q : Int) 5 1 = some (some (1, 6)) := by
  constructor
  · decide
  · decide

/-- C5 (amended): `main.py`'s signing and verification both reduce the digest
modulo `q` and remap a zero residue to `1`, identically — both factor through
the single reduction `specDigestRemap`; the other variants (such as
`main_v5.py`) apply no such remap. -/
theorem c5_digest_remap :
    ∀ (pr : CurveParams) (digest d k : Int) (sig : Int × Int) (Q : PtM),
      MainPy.signAttempt pr digest d k =
        MainPy.signAttemptE pr (MainPy.specDigestRemap pr.q digest) d k ∧
      MainPy.check_signature pr digest sig Q =
        MainPy.check_signatureE pr (MainPy.specDigestRemap pr.q digest) sig Q :=
  fun _ _ _ _ _ _ => ⟨rfl, rfl⟩

/-! ## Correctness of the extended-Euclidean routines -/

/-- The gcd is unchanged when the first argument is replaced by its remainder
modulo the second. -/
theorem int_gcd_emod_left (b m : Int) : Int.gcd (b % m) m = Int.gcd b m := by
  apply Nat.dvd_antisymm
  · apply Int.natCast_dvd_natCast.mp
    apply Int.dvd_gcd
    · have h1 : (↑(Int.gcd (b % m) m) : Int) ∣ b % m := Int.gcd_dvd_left
      have h2 : (↑(Int.gcd (b % m) m) : Int) ∣ m := Int.gcd_dvd_right
      have h3 : b % m + m * (b / m) = b := Int.emod_add_ediv b m
      have h4 : (↑(Int.gcd (b % m) m) : Int) ∣ b % m + m * (b / m) :=
        dvd_add h1 (h2.mul_right _)
      rwa [h3] at h4
    · exact Int.gcd_dvd_right
  · apply Int.natCast_dvd_natCast.mp
    apply Int.dvd_gcd
    · have h1 : (↑(Int.gcd b m) : Int) ∣ b := Int.gcd_dvd_left
      have h2 : (↑(Int.gcd b m) : Int) ∣ m := Int.gcd_dvd_right
      rw [Int.emod_def]
      exact dvd_sub h1 (h2.mul_right _)
    · exact Int.gcd_dvd_right

/-- Loop invariant of `main.py`'s `invLoop`: if `a·v ≡ low` and `b·v ≡ high`
modulo `m`, the pair is coprime and `high ≥ 2`, then the loop result
multiplies `v` to `1` modulo `m`. -/
theorem MainPy.invLoop_spec (m v : Int) :
    ∀ (fuel : Nat) (low high a b : Int), low.toNat ≤ fuel → 0 ≤ low → low < high → 2 ≤ high →
      a * v ≡ low [ZMOD m] → b * v ≡ high [ZMOD m] → Int.gcd low high = 1 →
      MainPy.invLoop fuel a b low high * v ≡ 1 [ZMOD m] := by
  intro fuel
  induction fuel with
  | zero =>
    intro low high a b hfuel h0 hlh hh2 ha hb hgcd
    simp only [MainPy.invLoop]
    have hlow : low = 0 ∨ low = 1 := by omega
    rcases hlow with h | h
    · exfalso
      subst h
      have h1 : high.natAbs = 1 := by simpa [Int.gcd] using hgcd
      omega
    · subst h
      exact ha
  | succ fuel ih =>
    intro low high a b hfuel h0 hlh hh2 ha hb hgcd
    by_cases hl : 1 < low
    · simp only [MainPy.invLoop, if_pos hl]
      have hm0 : 0 ≤ high % low := Int.emod_nonneg high (by omega)
      have hm1 : high % low < low := Int.emod_lt_of_pos high (by omega)
      apply ih
      · omega
      · exact hm0
      · exact hm1
      · omega
      · have key := hb.sub (ha.mul_left (high / low))
        have e1 : b * v - high / low * (a * v) = (b - a * (high / low)) * v := by ring
        have e2 : high - high / low * (low) = high % low := by
          rw [Int.emod_def]; ring
        rw [e1, e2] at key
        exact key
      · exact ha
      · rw [int_gcd_emod_left high low, Int.gcd_comm]
        exact hgcd
    · simp only [MainPy.invLoop, if_neg hl]
      have hlow : low = 0 ∨ low = 1 := by omega
      rcases hlow with h | h
      · exfalso
        subst h
        have h1 : high.natAbs = 1 := by simpa [Int.gcd] using hgcd
        omega
      · subst h
        exact ha

/-- `main.py`'s `inverse_modulo` returns a correct, normalized modular
inverse whenever its argument is coprime to the modulus `m ≥ 2`. -/
theorem MainPy.inverse_modulo_spec (v m : Int) (hm : 2 ≤ m) (hgcd : Int.gcd v m = 1) :
    ∃ w, MainPy.inverse_modulo v m = some w ∧ 0 ≤ w ∧ w < m ∧ v * w % m = 1 := by
  have hv : v ≠ 0 := by
    rintro rfl
    have : m.natAbs = 1 := by simpa [Int.gcd] using hgcd
    omega
  have hmod0 : 0 ≤ v % m := Int.emod_nonneg v (by omega)
  have hmod1 : v % m < m := Int.emod_lt_of_pos v (by omega)
  have hinv := MainPy.invLoop_spec m v (v % m).toNat (v % m) m 1 0 le_rfl hmod0 hmod1 hm
    (by
      show (1 * v) % m = (v % m) % m
      rw [one_mul, Int.emod_emod_of_dvd v dvd_rfl])
    (by
      show (0 * v) % m = m % m
      simp)
    (by rw [int_gcd_emod_left v m]; exact hgcd)
  refine ⟨MainPy.invLoop (v % m).toNat 1 0 (v % m) m % m, ?_, ?_, ?_, ?_⟩
  · simp [MainPy.inverse_modulo, hv]
  · exact Int.emod_nonneg _ (by omega)
  · exact Int.emod_lt_of_pos _ (by omega)
  · have h3 : MainPy.invLoop (v % m).toNat 1 0 (v % m) m * v % m = 1 % m := hinv
    rw [Int.mul_emod, Int.emod_emod_of_dvd _ dvd_rfl, ← Int.mul_emod, mul_comm, h3]
    exact Int.emod_eq_of_lt (by omega) (by omega)

/-- Bezout correctness of the recursive `extended_gcd` shared by the other
variants, for non-negative arguments. -/
theorem GostB.egcd_spec :
    ∀ (fuel : Nat) (a b : Int), a.natAbs < fuel → 0 ≤ a → 0 ≤ b →
      (GostB.egcd fuel a b).1 = (Int.gcd a b : Int) ∧
      (GostB.egcd fuel a b).2.1 * a + (GostB.egcd fuel a b).2.2 * b =
        (GostB.egcd fuel a b).1 := by
  intro fuel
  induction fuel with
  | zero => intro a b h _ _; exact absurd h (Nat.not_lt_zero _)
  | succ fuel ih =>
    intro a b hfuel ha hb
    by_cases h0 : a = 0
    · subst h0
      simp only [GostB.egcd, if_pos rfl]
      constructor
      · have : (Int.gcd 0 b : Int) = b := by
          simp [Int.gcd, Int.natAbs_of_nonneg hb]
        simpa using this.symm
      · simp
    · simp only [GostB.egcd, if_neg h0]
      have hapos : 0 < a := lt_of_le_of_ne ha (Ne.symm h0)
      have hfm : Int.fmod b a = b % a := Int.fmod_eq_emod b ha
      have hfd : Int.fdiv b a = b / a := Int.fdiv_eq_ediv b ha
      have hm0 : 0 ≤ b % a := Int.emod_nonneg b h0
      have hm1 : b % a < a := Int.emod_lt_of_pos b hapos
      have hrec := ih (b % a) a (by omega) hm0 ha
      obtain ⟨hg, hxy⟩ := hrec
      rw [hfm, hfd]
      constructor
      · simp only [hg]
        rw [int_gcd_emod_left b a, Int.gcd_comm]
      · linear_combination hxy - (GostB.egcd fuel (b % a) a).2.1 * Int.emod_def b a

/-- `main1.py`'s `mod_inverse`, on non-negative input and modulus `m ≥ 2`:
correct inverse when coprime, raises when the gcd is not `1`. -/
theorem GostB.mod_inverse_spec (v m : Int) (h0 : 0 ≤ v) (hm : 2 ≤ m) :
    (Int.gcd v m = 1 →
      ∃ w, GostB.mod_inverse v m = some w ∧ 0 ≤ w ∧ w < m ∧ v * w % m = 1) ∧
    (Int.gcd v m ≠ 1 → GostB.mod_inverse v m = none) := by
  have hspec := GostB.egcd_spec (v.natAbs + 1) v m (Nat.lt_succ_self _) h0 (by omega)
  obtain ⟨hg, hxy⟩ := hspec
  constructor
  · intro hgcd
    have hg1 : (GostB.egcd (v.natAbs + 1) v m).1 = 1 := by rw [hg, hgcd]; rfl
    refine ⟨(GostB.egcd (v.natAbs + 1) v m).2.1 % m, ?_, ?_, ?_, ?_⟩
    · have hnorm : ((GostB.egcd (v.natAbs + 1) v m).2.1 % m + m) % m =
          (GostB.egcd (v.natAbs + 1) v m).2.1 % m := by
        have h5 : ((GostB.egcd (v.natAbs + 1) v m).2.1 % m + m * 1) % m =
            (GostB.egcd (v.natAbs + 1) v m).2.1 % m % m :=
          Int.add_mul_emod_self_left _ _ _
        rw [mul_one] at h5
        rw [h5, Int.emod_emod_of_dvd _ dvd_rfl]
      simp [GostB.mod_inverse, GostB.extended_gcd, hg1, hnorm]
    · exact Int.emod_nonneg _ (by omega)
    · exact Int.emod_lt_of_pos _ (by omega)
    · rw [hg1] at hxy
      rw [Int.mul_emod, Int.emod_emod_of_dvd _ dvd_rfl, ← Int.mul_emod]
      have h6 : v * (GostB.egcd (v.natAbs + 1) v m).2.1 =
          1 + m * (-(GostB.egcd (v.natAbs + 1) v m).2.2) := by
        linear_combination hxy
      rw [h6, Int.add_mul_emod_self_left]
      exact Int.emod_eq_of_lt (by omega) (by omega)
  · intro hgcd
    have hg1 : (GostB.egcd (v.natAbs + 1) v m).1 ≠ 1 := by
      rw [hg]
      intro hc
      apply hgcd
      exact_mod_cast hc
    simp [GostB.mod_inverse, GostB.extended_gcd, hg1]

/-- C3 counterexample: `main.py`'s `inverse_modulo` raises only when its
argument is the literal `0`: for `v = 5` and the prime modulus `m = 5`
(`gcd(v, m) = 5 ≠ 1`, `v ≡ 0 (mod m)`) it returns `1` without raising,
instead of raising the claimed `NoInverse` error. -/
theorem c3_counterexample :
    MainPy.inverse_modulo 5 5 = some 1 ∧ Nat.Prime 5 ∧ Int.gcd 5 5 ≠ 1 :=
  ⟨by decide, by norm_num, by decide⟩

/-- C3 (amended): for modulus `m ≥ 2`, `main.py`'s `inverse_modulo` returns
`w` with `0 ≤ w < m` and `(v·w) mod m = 1` for every integer `v` coprime to
`m`, but raises exactly when `v = 0`; `main1.py`'s `mod_inverse`, for
`v ≥ 0`, returns such a `w` when `gcd(v, m) = 1` and raises the no-inverse
error when `gcd(v, m) ≠ 1`. -/
theorem c3_modular_inverse :
    (∀ v m : Int, 2 ≤ m → Int.gcd v m = 1 →
        ∃ w, MainPy.inverse_modulo v m = some w ∧ 0 ≤ w ∧ w < m ∧ v * w % m = 1) ∧
    (∀ v m : Int, MainPy.inverse_modulo v m = none ↔ v = 0) ∧
    (∀ v m : Int, 0 ≤ v → 2 ≤ m →
        (Int.gcd v m = 1 →
          ∃ w, GostB.mod_inverse v m = some w ∧ 0 ≤ w ∧ w < m ∧ v * w % m = 1) ∧
        (Int.gcd v m ≠ 1 → GostB.mod_inverse v m = none)) := by
  refine ⟨fun v m hm h => MainPy.inverse_modulo_spec v m hm h, fun v m => ?_,
    fun v m h0 hm => GostB.mod_inverse_spec v m h0 hm⟩
  by_cases hv : v = 0 <;> simp [MainPy.inverse_modulo, hv]

/-- C3 witness: concrete inverses and failures for both routines. -/
theorem c3_witness :
    (∃ w, MainPy.inverse_modulo 3 7 = some w ∧ 0 ≤ w ∧ w < 7 ∧ 3 * w % 7 = 1) ∧
    MainPy.inverse_modulo 0 7 = none ∧
    (∃ w, GostB.mod_inverse 3 7 = some w ∧ 0 ≤ w ∧ w < 7 ∧ 3 * w % 7 = 1) ∧
    GostB.mod_inverse 10 5 = none :=
  ⟨c3_modular_inverse.1 3 7 (by decide) (by decide),
   (c3_modular_inverse.2.1 0 7).mpr rfl,
   (c3_modular_inverse.2.2 3 7 (by decide) (by decide)).1 (by decide),
   (c3_modular_inverse.2.2 10 5 (by decide) (by decide)).2 (by decide)⟩

/-! ## Bridge to the Mathlib Weierstrass curve group -/

/-- Reducing an integer modulo `p` does not change its image in `ZMod p`. -/
theorem zmod_intCast_emod (p : Nat) (a : Int) :
    (((a % (p : Int)) : Int) : ZMod p) = (a : ZMod p) := by
  rw [ZMod.intCast_eq_intCast_iff]
  show a % (p : Int) % (p : Int) = a % (p : Int)
  exact Int.emod_emod_of_dvd a dvd_rfl

/-- The cast `Int → ZMod p` is injective on `[0, p)`. -/
theorem zmod_intCast_inj {p : Nat} {x y : Int} (hx0 : 0 ≤ x) (hx1 : x < (p : Int))
    (hy0 : 0 ≤ y) (hy1 : y < (p : Int)) (h : (x : ZMod p) = (y : ZMod p)) : x = y := by
  rw [ZMod.intCast_eq_intCast_iff'] at h
  rwa [Int.emod_eq_of_lt hx0 hx1, Int.emod_eq_of_lt hy0 hy1] at h

/-- A multiple of a positive `p` that lies strictly between `-p` and `p`
is zero. -/
theorem int_eq_zero_of_dvd_of_lt {p d : Int} (hd : p ∣ d) (h1 : -p < d) (h2 : d < p) :
    d = 0 := by
  rcases hd with ⟨c, rfl⟩
  rcases lt_trichotomy c 0 with h | h | h
  · nlinarith
  · simp [h]
  · nlinarith

/-- An integer not divisible by the prime `p` is coprime to `p`. -/
theorem int_gcd_prime_of_not_dvd {p : Nat} (hp : p.Prime) {v : Int}
    (h : ¬ ((p : Int) ∣ v)) : Int.gcd v (p : Int) = 1 := by
  have h2 : ¬ (p ∣ v.natAbs) := fun hc => h (Int.natCast_dvd.mpr hc)
  have h3 : Nat.Coprime p v.natAbs := (Nat.Prime.coprime_iff_not_dvd hp).mpr h2
  simpa [Int.gcd, Int.natAbs_ofNat, Nat.coprime_comm] using h3

/-- `main.py`'s `inverse_modulo`, seen in `ZMod p`: it returns the field
inverse of any element with nonzero image. -/
theorem inverse_modulo_zmod {p : Nat} (hp : p.Prime) (v : Int)
    (hv : (v : ZMod p) ≠ 0) :
    ∃ w, MainPy.inverse_modulo v (p : Int) = some w ∧ 0 ≤ w ∧ w < (p : Int) ∧
      (w : ZMod p) = (v : ZMod p)⁻¹ := by
  haveI : Fact p.Prime := ⟨hp⟩
  have hnd : ¬ ((p : Int) ∣ v) :=
    fun hc => hv ((ZMod.intCast_zmod_eq_zero_iff_dvd v p).mpr hc)
  obtain ⟨w, hw, h0, h1, hmul⟩ := MainPy.inverse_modulo_spec v p
    (by exact_mod_cast hp.two_le) (int_gcd_prime_of_not_dvd hp hnd)
  refine ⟨w, hw, h0, h1, ?_⟩
  have hcast : ((v * w % (p : Int) : Int) : ZMod p) = ((1 : Int) : ZMod p) := by rw [hmul]
  rw [zmod_intCast_emod] at hcast
  push_cast at hcast
  exact eq_inv_of_mul_eq_one_right hcast

/-- The negation formula of `curveW` is plain negation. -/
theorem curveW_negY (pr : CurveParams) (x y : ZMod pr.p) :
    (curveW pr).negY x y = -y := by
  simp [curveW, WeierstrassCurve.Affine.negY]

/-- The curve equation of `curveW` in short Weierstrass form. -/
theorem curveW_equation_iff (pr : CurveParams) (x y : ZMod pr.p) :
    (curveW pr).Equation x y ↔
      y ^ 2 = x ^ 3 + (pr.a : ZMod pr.p) * x + (pr.b : ZMod pr.p) := by
  rw [WeierstrassCurve.Affine.equation_iff]
  simp [curveW]

/-- The discriminant of `curveW` in short Weierstrass form. -/
theorem curveW_delta (pr : CurveParams) :
    (curveW pr).Δ = -16 * (4 * (pr.a : ZMod pr.p) ^ 3 + 27 * (pr.b : ZMod pr.p) ^ 2) := by
  simp only [curveW, WeierstrassCurve.Δ, WeierstrassCurve.b₂, WeierstrassCurve.b₄,
    WeierstrassCurve.b₆, WeierstrassCurve.b₈]
  ring

/-- Every integer pair satisfying the embedded curve equation is a
nonsingular point of `curveW`, for a prime `p > 3` and nonzero reduced
discriminant. -/
theorem curveW_nonsingular {pr : CurveParams} (hp : pr.p.Prime) (hp3 : 3 < pr.p)
    (hΔ : (4 * pr.a ^ 3 + 27 * pr.b ^ 2) % (pr.p : Int) ≠ 0)
    {x y : Int} (heq : y * y % (pr.p : Int) = (x * x * x + pr.a * x + pr.b) % (pr.p : Int)) :
    (curveW pr).Nonsingular (x : ZMod pr.p) (y : ZMod pr.p) := by
  haveI : Fact pr.p.Prime := ⟨hp⟩
  apply WeierstrassCurve.Affine.nonsingular_of_Δ_ne_zero
  · rw [curveW_equation_iff]
    have hcast : ((y * y % (pr.p : Int) : Int) : ZMod pr.p) =
        ((x * x * x + pr.a * x + pr.b) % (pr.p : Int) : Int) := by rw [heq]
    rw [zmod_intCast_emod, zmod_intCast_emod] at hcast
    push_cast at hcast
    linear_combination hcast
  · rw [curveW_delta]
    apply mul_ne_zero
    · intro hc
      have h16 : ((16 : Nat) : ZMod pr.p) = 0 := by
        have : (-16 : ZMod pr.p) = 0 := hc
        push_cast
        linear_combination -this
      rw [ZMod.natCast_zmod_eq_zero_iff_dvd] at h16
      have h2 : pr.p ∣ 2 ^ 4 := by norm_num; exact h16
      have h3 : pr.p ∣ 2 := hp.dvd_of_dvd_pow h2
      have h4 : pr.p ≤ 2 := Nat.le_of_dvd (by norm_num) h3
      omega
    · intro hc
      apply hΔ
      have hcast : ((4 * pr.a ^ 3 + 27 * pr.b ^ 2 : Int) : ZMod pr.p) = 0 := by
        push_cast
        linear_combination hc
      rw [ZMod.intCast_zmod_eq_zero_iff_dvd, Int.dvd_iff_emod_eq_zero] at hcast
      exact hcast

open WeierstrassCurve.Affine in
/-- An equality of coordinates transports a nonsingular point. -/
theorem point_some_congr {R : Type} [CommRing R] {W : WeierstrassCurve.Affine R}
    {x y x' y' : R} (hx : x = x') (hy : y = y') (h : W.Nonsingular x y) :
    ∃ h' : W.Nonsingular x' y', Point.some h = Point.some h' := by
  subst hx
  subst hy
  exact ⟨h, rfl⟩

/-- Packaging of `Reps` for an affine result with given coordinate images. -/
theorem reps_some_of_cast {pr : CurveParams} {x3 y3 : Int}
    (hx0 : 0 ≤ x3) (hx1 : x3 < (pr.p : Int)) (hy0 : 0 ≤ y3) (hy1 : y3 < (pr.p : Int))
    {X Y : ZMod pr.p} (hX : ((x3 : Int) : ZMod pr.p) = X) (hY : ((y3 : Int) : ZMod pr.p) = Y)
    (h : (curveW pr).Nonsingular X Y) :
    Reps pr (some (x3, y3)) (WeierstrassCurve.Affine.Point.some h) :=
  ⟨hx0, hx1, hy0, hy1, point_some_congr hX.symm hY.symm h⟩

open WeierstrassCurve.Affine in
/-- `main.py`'s `curve_point_sum` implements the group law of `curveW`: on
represented points it never raises, and its result represents the Mathlib
sum of the represented points. -/
theorem curve_point_sum_reps {pr : CurveParams} [Fact pr.p.Prime]
    {P Q : PtM} {P' Q' : (curveW pr).Point}
    (hP : Reps pr P P') (hQ : Reps pr Q Q') :
    ∃ R, MainPy.curve_point_sum pr P Q = some R ∧ Reps pr R (P' + Q') := by
  have hp : pr.p.Prime := Fact.out
  have hppos : 0 < (pr.p : Int) := by exact_mod_cast hp.pos
  cases P with
  | none =>
    refine ⟨Q, by simp only [MainPy.curve_point_sum], ?_⟩
    have h0 : P' = 0 := hP
    rw [h0, zero_add]
    exact hQ
  | some pt1 =>
    cases Q with
    | none =>
      refine ⟨some pt1, by simp only [MainPy.curve_point_sum], ?_⟩
      have h0 : Q' = 0 := hQ
      rw [h0, add_zero]
      exact hP
    | some pt2 =>
      obtain ⟨x1, y1⟩ := pt1
      obtain ⟨x2, y2⟩ := pt2
      obtain ⟨hx10, hx11, hy10, hy11, h₁, hP'⟩ := hP
      obtain ⟨hx20, hx21, hy20, hy21, h₂, hQ'⟩ := hQ
      subst hP'
      subst hQ'
      by_cases hvert : x1 = x2 ∧ (y1 + y2) % (pr.p : Int) = 0
      · refine ⟨none, ?_, ?_⟩
        · simp [MainPy.curve_point_sum, hvert.1, hvert.2]
        · have hcx : (x1 : ZMod pr.p) = (x2 : ZMod pr.p) := by rw [hvert.1]
          have hneg : (y1 : ZMod pr.p) = (curveW pr).negY (x2 : ZMod pr.p) (y2 : ZMod pr.p) := by
            rw [curveW_negY]
            have hz : ((y1 + y2 : Int) : ZMod pr.p) = 0 := by
              rw [← zmod_intCast_emod pr.p (y1 + y2), hvert.2]
              exact Int.cast_zero
            push_cast at hz
            linear_combination hz
          show Point.some h₁ + Point.some h₂ = 0
          exact Point.add_of_Y_eq hcx hneg
      · by_cases heq : (x1, y1) = (x2, y2)
        · have hx12 : x1 = x2 := congrArg Prod.fst heq
          subst hx12
          have hy12 : y1 = y2 := congrArg Prod.snd heq
          subst hy12
          have hs : (y1 + y1) % (pr.p : Int) ≠ 0 := fun hc => hvert ⟨rfl, hc⟩
          have h2y : ¬ ((pr.p : Int) ∣ (2 * y1)) := by
            intro hc
            apply hs
            have h5 : (2 * y1) % (pr.p : Int) = 0 := Int.dvd_iff_emod_eq_zero.mp hc
            have h6 : y1 + y1 = 2 * y1 := by ring
            rw [h6]
            exact h5
          have hcy2 : ((2 * y1 : Int) : ZMod pr.p) ≠ 0 := by
            rw [Ne, ZMod.intCast_zmod_eq_zero_iff_dvd]
            exact h2y
          obtain ⟨w, hw, hw0, hw1, hwinv⟩ := inverse_modulo_zmod hp (2 * y1) hcy2
          have hyne : (y1 : ZMod pr.p) ≠ (curveW pr).negY (x1 : ZMod pr.p) (y1 : ZMod pr.p) := by
            rw [curveW_negY]
            intro hc
            apply hcy2
            push_cast
            linear_combination hc
          set g : Int := (3 * x1 * x1 + pr.a) * w % (pr.p : Int) with hgdef
          set x3 : Int := (g * g - x1 - x1) % (pr.p : Int) with hx3def
          set y3 : Int := (g * (x1 - x3) - y1) % (pr.p : Int) with hy3def
          have hgZ : ((g : Int) : ZMod pr.p) =
              (curveW pr).slope (x1 : ZMod pr.p) (x1 : ZMod pr.p) (y1 : ZMod pr.p)
                (y1 : ZMod pr.p) := by
            rw [hgdef, zmod_intCast_emod]
            push_cast
            rw [hwinv, slope_of_Y_ne rfl hyne]
            have hden : (y1 : ZMod pr.p) - (curveW pr).negY (x1 : ZMod pr.p) (y1 : ZMod pr.p) =
                2 * (y1 : ZMod pr.p) := by
              rw [curveW_negY]
              ring
            rw [hden, div_eq_mul_inv]
            push_cast
            simp only [curveW]
            ring
          have hX : ((x3 : Int) : ZMod pr.p) =
              (curveW pr).addX (x1 : ZMod pr.p) (x1 : ZMod pr.p)
                ((curveW pr).slope (x1 : ZMod pr.p) (x1 : ZMod pr.p) (y1 : ZMod pr.p)
                  (y1 : ZMod pr.p)) := by
            rw [hx3def, zmod_intCast_emod]
            push_cast
            rw [hgZ]
            simp only [WeierstrassCurve.Affine.addX, curveW]
            ring
          have hY : ((y3 : Int) : ZMod pr.p) =
              (curveW pr).addY (x1 : ZMod pr.p) (x1 : ZMod pr.p) (y1 : ZMod pr.p)
                ((curveW pr).slope (x1 : ZMod pr.p) (x1 : ZMod pr.p) (y1 : ZMod pr.p)
                  (y1 : ZMod pr.p)) := by
            rw [hy3def, zmod_intCast_emod]
            push_cast
            rw [hgZ, hX]
            simp only [WeierstrassCurve.Affine.addY, WeierstrassCurve.Affine.negAddY,
              WeierstrassCurve.Affine.negY, WeierstrassCurve.Affine.addX, curveW]
            ring
          have hadd : Point.some h₁ + Point.some h₂ =
              Point.some (nonsingular_add h₁ h₂ (fun _ => hyne)) := Point.add_of_Y_ne hyne
          refine ⟨some (x3, y3), ?_, ?_⟩
          · rw [hy3def, hx3def, hgdef]
            simp [MainPy.curve_point_sum, hs, hw]
          · rw [hadd]
            refine reps_some_of_cast ?_ ?_ ?_ ?_ hX hY _
            · rw [hx3def]
              exact Int.emod_nonneg _ (ne_of_gt hppos)
            · rw [hx3def]
              exact Int.emod_lt_of_pos _ hppos
            · rw [hy3def]
              exact Int.emod_nonneg _ (ne_of_gt hppos)
            · rw [hy3def]
              exact Int.emod_lt_of_pos _ hppos
        · by_cases hxx : x1 = x2
          · exfalso
            subst hxx
            have hy12 : y1 ≠ y2 := fun hc => heq (by rw [hc])
            have hcy12 : (y1 : ZMod pr.p) ≠ (y2 : ZMod pr.p) :=
              fun hc => hy12 (zmod_intCast_inj hy10 hy11 hy20 hy21 hc)
            have hvert2 : (y1 + y2) % (pr.p : Int) ≠ 0 := fun hc => hvert ⟨rfl, hc⟩
            have he1 := (curveW_equation_iff pr (x1 : ZMod pr.p) (y1 : ZMod pr.p)).mp h₁.1
            have he2 := (curveW_equation_iff pr (x1 : ZMod pr.p) (y2 : ZMod pr.p)).mp h₂.1
            have hfac : ((y1 : ZMod pr.p) - (y2 : ZMod pr.p)) *
                ((y1 : ZMod pr.p) + (y2 : ZMod pr.p)) = 0 := by
              linear_combination he1 - he2
            rcases mul_eq_zero.mp hfac with hc | hc
            · exact hcy12 (by linear_combination hc)
            · apply hvert2
              have hz : ((y1 + y2 : Int) : ZMod pr.p) = 0 := by
                push_cast
                linear_combination hc
              rw [ZMod.intCast_zmod_eq_zero_iff_dvd] at hz
              exact Int.dvd_iff_emod_eq_zero.mp hz
          · have hcxx : (x1 : ZMod pr.p) ≠ (x2 : ZMod pr.p) :=
              fun hc => hxx (zmod_intCast_inj hx10 hx11 hx20 hx21 hc)
            have hnd : ¬ ((pr.p : Int) ∣ (x2 - x1)) := by
              intro hc
              have h5 := int_eq_zero_of_dvd_of_lt hc (by omega) (by omega)
              apply hxx
              omega
            have hcd : ((x2 - x1 : Int) : ZMod pr.p) ≠ 0 := by
              rw [Ne, ZMod.intCast_zmod_eq_zero_iff_dvd]
              exact hnd
            obtain ⟨w, hw, hw0, hw1, hwinv⟩ := inverse_modulo_zmod hp (x2 - x1) hcd
            have hne21 : ((x2 : ZMod pr.p) - (x1 : ZMod pr.p)) ≠ 0 :=
              sub_ne_zero.mpr (Ne.symm hcxx)
            have hne12 : ((x1 : ZMod pr.p) - (x2 : ZMod pr.p)) ≠ 0 :=
              sub_ne_zero.mpr hcxx
            set g : Int := (y2 - y1) * w % (pr.p : Int) with hgdef
            set x3 : Int := (g * g - x1 - x2) % (pr.p : Int) with hx3def
            set y3 : Int := (g * (x1 - x3) - y1) % (pr.p : Int) with hy3def
            have hgZ : ((g : Int) : ZMod pr.p) =
                (curveW pr).slope (x1 : ZMod pr.p) (x2 : ZMod pr.p) (y1 : ZMod pr.p)
                  (y2 : ZMod pr.p) := by
              rw [hgdef, zmod_intCast_emod]
              push_cast
              rw [hwinv, slope_of_X_ne hcxx]
              push_cast
              field_simp
              ring
            have hX : ((x3 : Int) : ZMod pr.p) =
                (curveW pr).addX (x1 : ZMod pr.p) (x2 : ZMod pr.p)
                  ((curveW pr).slope (x1 : ZMod pr.p) (x2 : ZMod pr.p) (y1 : ZMod pr.p)
                    (y2 : ZMod pr.p)) := by
              rw [hx3def, zmod_intCast_emod]
              push_cast
              rw [hgZ]
              simp only [WeierstrassCurve.Affine.addX, curveW]
              ring
            have hY : ((y3 : Int) : ZMod pr.p) =
                (curveW pr).addY (x1 : ZMod pr.p) (x2 : ZMod pr.p) (y1 : ZMod pr.p)
                  ((curveW pr).slope (x1 : ZMod pr.p) (x2 : ZMod pr.p) (y1 : ZMod pr.p)
                    (y2 : ZMod pr.p)) := by
              rw [hy3def, zmod_intCast_emod]
              push_cast
              rw [hgZ, hX]
              simp only [WeierstrassCurve.Affine.addY, WeierstrassCurve.Affine.negAddY,
                WeierstrassCurve.Affine.negY, WeierstrassCurve.Affine.addX, curveW]
              ring
            have hadd : Point.some h₁ + Point.some h₂ =
                Point.some (nonsingular_add h₁ h₂ (fun h5 => absurd h5 hcxx)) :=
              Point.add_of_X_ne hcxx
            refine ⟨some (x3, y3), ?_, ?_⟩
            · rw [hy3def, hx3def, hgdef]
              simp [MainPy.curve_point_sum, hxx, hw]
            · rw [hadd]
              refine reps_some_of_cast ?_ ?_ ?_ ?_ hX hY _
              · rw [hx3def]
                exact Int.emod_nonneg _ (ne_of_gt hppos)
              · rw [hx3def]
                exact Int.emod_lt_of_pos _ hppos
              · rw [hy3def]
                exact Int.emod_nonneg _ (ne_of_gt hppos)
              · rw [hy3def]
                exact Int.emod_lt_of_pos _ hppos

/-- A nonnegative nonzero integer is at least one. -/
theorem int_one_le_of_ne_zero {x : Int} (h0 : 0 ≤ x) (hne : x ≠ 0) : 1 ≤ x := by
  have h : 0 < x := lt_of_le_of_ne h0 (Ne.symm hne)
  have h2 := Int.add_one_le_iff.mpr h
  simpa using h2

/-- `main.py`'s double-and-add loop on represented points: with sufficient
fuel it never raises, and its result represents `C' + k.toNat • T'`. -/
theorem MainPy.mulLoop_reps {pr : CurveParams} [Fact pr.p.Prime] (fuel : Nat) :
    ∀ (k : Int) (C T : PtM) (C' T' : (curveW pr).Point),
      k.toNat ≤ fuel → Reps pr C C' → Reps pr T T' →
      ∃ R, MainPy.mulLoop pr fuel C T k = some R ∧ Reps pr R (C' + k.toNat • T') := by
  induction fuel with
  | zero =>
    intro k C T C' T' hk hC hT
    have hkneg : ¬ 0 < k := by omega
    refine ⟨C, by simp [MainPy.mulLoop, hkneg], ?_⟩
    have hk0 : k.toNat = 0 := by omega
    rw [hk0, zero_nsmul, add_zero]
    exact hC
  | succ fuel ih =>
    intro k C T C' T' hk hC hT
    by_cases hkpos : 0 < k
    · have h2 := Int.ediv_add_emod k 2
      have h3 := Int.emod_nonneg k (by norm_num : (2 : Int) ≠ 0)
      have h4 := Int.emod_lt_of_pos k (by norm_num : (0 : Int) < 2)
      obtain ⟨Tsq, hTsq, hTsqr⟩ := curve_point_sum_reps hT hT
      by_cases hodd : k % 2 = 1
      · obtain ⟨Cn, hCn, hCnr⟩ := curve_point_sum_reps hC hT
        obtain ⟨R, hR, hRr⟩ := ih (k / 2) Cn Tsq (C' + T') (T' + T') (by omega) hCnr hTsqr
        refine ⟨R, ?_, ?_⟩
        · simp [MainPy.mulLoop, hkpos, hodd, hCn, hTsq, hR]
        · have hkt : k.toNat = 2 * (k / 2).toNat + 1 := by omega
          have hsm : (k / 2).toNat • (T' + T') = (2 * (k / 2).toNat) • T' := by
            rw [mul_nsmul, two_nsmul]
          have heq : C' + k.toNat • T' = C' + T' + (k / 2).toNat • (T' + T') := by
            rw [hkt, hsm, add_nsmul, one_nsmul]
            abel
          rw [heq]
          exact hRr
      · obtain ⟨R, hR, hRr⟩ := ih (k / 2) C Tsq C' (T' + T') (by omega) hC hTsqr
        refine ⟨R, ?_, ?_⟩
        · simp [MainPy.mulLoop, hkpos, hodd, hTsq, hR]
        · have hkt : k.toNat = 2 * (k / 2).toNat := by omega
          have hsm : (k / 2).toNat • (T' + T') = (2 * (k / 2).toNat) • T' := by
            rw [mul_nsmul, two_nsmul]
          have heq : C' + k.toNat • T' = C' + (k / 2).toNat • (T' + T') := by
            rw [hkt, hsm]
          rw [heq]
          exact hRr
    · refine ⟨C, by simp [MainPy.mulLoop, hkpos], ?_⟩
      have hk0 : k.toNat = 0 := by omega
      rw [hk0, zero_nsmul, add_zero]
      exact hC

/-- `main.py`'s `multiply_point` on a represented point computes the
`k.toNat`-fold multiple and never raises. -/
theorem MainPy.multiply_point_reps {pr : CurveParams} [Fact pr.p.Prime]
    (k : Int) {P : PtM} {P' : (curveW pr).Point} (hP : Reps pr P P') :
    ∃ R, MainPy.multiply_point pr k P = some R ∧ Reps pr R (k.toNat • P') := by
  obtain ⟨R, hR, hRr⟩ := MainPy.mulLoop_reps k.toNat k none P 0 P' le_rfl rfl hP
  refine ⟨R, hR, ?_⟩
  rwa [zero_add] at hRr

/-- Scalar multiples of a point annihilated by `q` depend only on the
scalar modulo `q`. -/
theorem nsmul_mod_order {A : Type} [AddCommGroup A] (Gp : A) (q : Nat)
    (hq : q • Gp = 0) (m : Nat) : m • Gp = (m % q) • Gp := by
  conv_lhs => rw [← Nat.div_add_mod m q]
  rw [add_nsmul, mul_nsmul, hq, smul_zero, zero_add]

/-- Evaluation of one signing attempt when the nonce multiple is affine. -/
theorem MainPy.signAttempt_eval {pr : CurveParams} {digest d k : Int} {xk yk : Int}
    (hT : MainPy.multiply_point pr k (some pr.G) = some (some (xk, yk))) :
    MainPy.signAttempt pr digest d k =
      (if xk % (pr.q : Int) = 0 then some none
       else if (xk % (pr.q : Int) * d +
           k * (if digest % (pr.q : Int) = 0 then 1 else digest % (pr.q : Int))) % (pr.q : Int) ≠ 0
         then some (some (xk % (pr.q : Int),
           (xk % (pr.q : Int) * d +
             k * (if digest % (pr.q : Int) = 0 then 1 else digest % (pr.q : Int))) % (pr.q : Int)))
         else some none) := by
  unfold MainPy.signAttempt
  rw [hT]
  rfl

open WeierstrassCurve.Affine in
/-- C1: for every valid curve parameter set (prime field modulus above 3,
prime group order, base point on the curve with reduced coordinates and
nonzero reduced discriminant, and `q·G` evaluating to the identity), every
private scalar `d` with `1 ≤ d < q` and every digest, a signature produced
by a successful iteration of `main.py`'s `generate_signature` is accepted
by `check_signature` against the public key `d·G`. -/
theorem c1_sign_verify_roundtrip (pr : CurveParams)
    (hp : pr.p.Prime) (hp3 : 3 < pr.p) (hq : pr.q.Prime)
    (hGx0 : 0 ≤ pr.G.1) (hGx1 : pr.G.1 < (pr.p : Int))
    (hGy0 : 0 ≤ pr.G.2) (hGy1 : pr.G.2 < (pr.p : Int))
    (hGcurve : pr.G.2 * pr.G.2 % (pr.p : Int)
      = (pr.G.1 * pr.G.1 * pr.G.1 + pr.a * pr.G.1 + pr.b) % (pr.p : Int))
    (hdisc : (4 * pr.a ^ 3 + 27 * pr.b ^ 2) % (pr.p : Int) ≠ 0)
    (hord : MainPy.multiply_point pr (pr.q : Int) (some pr.G) = some none)
    (d k digest r s : Int) (hd : 1 ≤ d) (hdq : d < (pr.q : Int))
    (hsig : MainPy.signAttempt pr digest d k = some (some (r, s)))
    (Qe : PtM) (hQe : MainPy.multiply_point pr d (some pr.G) = some Qe) :
    MainPy.check_signature pr digest (r, s) Qe = some true := by
  haveI : Fact pr.p.Prime := ⟨hp⟩
  have hqpos : 0 < (pr.q : Int) := by exact_mod_cast hq.pos
  have hq2 : 2 ≤ (pr.q : Int) := by exact_mod_cast hq.two_le
  -- the represented base point
  have hGns : (curveW pr).Nonsingular (pr.G.1 : ZMod pr.p) (pr.G.2 : ZMod pr.p) :=
    curveW_nonsingular hp hp3 hdisc hGcurve
  set G' : (curveW pr).Point := WeierstrassCurve.Affine.Point.some hGns with hGdef
  have hGrep : Reps pr (some pr.G) G' := ⟨hGx0, hGx1, hGy0, hGy1, hGns, rfl⟩
  -- q annihilates the represented base point
  have hqG : pr.q • G' = 0 := by
    obtain ⟨R0, hR0, hR0r⟩ := MainPy.multiply_point_reps (pr.q : Int) hGrep
    have h1 : (some none : Option PtM) = some R0 := hord.symm.trans hR0
    have h2 : R0 = none := by
      injection h1 with h1'
      exact h1'.symm
    rw [h2] at hR0r
    have h3 : ((pr.q : Int)).toNat • G' = 0 := hR0r
    rwa [Int.toNat_natCast] at h3
  -- the remapped digest
  set e : Int := if digest % (pr.q : Int) = 0 then 1 else digest % (pr.q : Int) with hedef
  have he1 : 1 ≤ e := by
    rw [hedef]
    split
    · exact le_refl 1
    · next hne =>
      exact int_one_le_of_ne_zero (Int.emod_nonneg digest (ne_of_gt hqpos)) hne
  have heq2 : e < (pr.q : Int) := by
    rw [hedef]
    split
    · exact by exact_mod_cast hq.one_lt
    · exact Int.emod_lt_of_pos digest hqpos
  -- unfolding the successful signing attempt
  obtain ⟨T, hT, hTr⟩ := MainPy.multiply_point_reps k hGrep
  cases T with
  | none =>
    have hbad : MainPy.signAttempt pr digest d k = some none := by
      simp [MainPy.signAttempt, hT]
    rw [hbad] at hsig
    exact absurd hsig (by simp)
  | some tp =>
    obtain ⟨xk, yk⟩ := tp
    have hk : 0 < k := by
      by_contra hkn
      have hz : k.toNat = 0 := by omega
      have hnone : MainPy.multiply_point pr k (some pr.G) = some none := by
        simp [MainPy.multiply_point, hz, MainPy.mulLoop, hkn]
      rw [hnone] at hT
      simp at hT
    obtain ⟨hxk0, hxk1, hyk0, hyk1, hns, hkG⟩ := hTr
    rw [MainPy.signAttempt_eval hT, ← hedef] at hsig
    by_cases hr0 : xk % (pr.q : Int) = 0
    · rw [if_pos hr0] at hsig
      exact absurd hsig (by simp)
    rw [if_neg hr0] at hsig
    by_cases hs0 : (xk % (pr.q : Int) * d + k * e) % (pr.q : Int) = 0
    · rw [if_neg (not_not_intro hs0)] at hsig
      exact absurd hsig (by simp)
    rw [if_pos hs0] at hsig
    simp only [Option.some.injEq, Prod.mk.injEq] at hsig
    obtain ⟨hrdef, hsdef⟩ := hsig
    rw [hrdef] at hsdef hs0
    -- range facts for the returned signature
    have hrge : 0 ≤ r := by rw [← hrdef]; exact Int.emod_nonneg _ (ne_of_gt hqpos)
    have hrlt : r < (pr.q : Int) := by rw [← hrdef]; exact Int.emod_lt_of_pos _ hqpos
    have hrne : r ≠ 0 := by rw [← hrdef]; exact hr0
    have hr1 : 1 ≤ r := int_one_le_of_ne_zero hrge hrne
    have hsge : 0 ≤ s := by rw [← hsdef]; exact Int.emod_nonneg _ (ne_of_gt hqpos)
    have hslt : s < (pr.q : Int) := by rw [← hsdef]; exact Int.emod_lt_of_pos _ hqpos
    have hsne : s ≠ 0 := by rw [← hsdef]; exact hs0
    have hs1 : 1 ≤ s := int_one_le_of_ne_zero hsge hsne
    -- the digest inverse taken by verification
    have hegcd : Int.gcd e (pr.q : Int) = 1 := by
      apply int_gcd_prime_of_not_dvd hq
      intro hdvd
      have h0 := int_eq_zero_of_dvd_of_lt hdvd (by linarith) heq2
      linarith
    obtain ⟨w, hw, hw0, hw1, hwinv⟩ := MainPy.inverse_modulo_spec e (pr.q : Int) hq2 hegcd
    set u1 : Int := s * w % (pr.q : Int) with hu1
    set u2 : Int := -r * w % (pr.q : Int) with hu2
    have hu1n : 0 ≤ u1 := by rw [hu1]; exact Int.emod_nonneg _ (ne_of_gt hqpos)
    have hu2n : 0 ≤ u2 := by rw [hu2]; exact Int.emod_nonneg _ (ne_of_gt hqpos)
    -- the verification scalars recombine to k modulo q
    have hwcast : ((e * w : Int) : ZMod pr.q) = ((1 : Int) : ZMod pr.q) := by
      rw [← zmod_intCast_emod pr.q (e * w), hwinv]
    have hscast : ((s : Int) : ZMod pr.q) = ((r * d + k * e : Int) : ZMod pr.q) := by
      rw [← hsdef, zmod_intCast_emod]
    have hu1cast : ((u1 : Int) : ZMod pr.q) = ((s * w : Int) : ZMod pr.q) := by
      rw [hu1, zmod_intCast_emod]
    have hu2cast : ((u2 : Int) : ZMod pr.q) = ((-r * w : Int) : ZMod pr.q) := by
      rw [hu2, zmod_intCast_emod]
    have hcong : ((u1 + d * u2 : Int) : ZMod pr.q) = ((k : Int) : ZMod pr.q) := by
      push_cast at hwcast hscast hu1cast hu2cast ⊢
      linear_combination hu1cast + (d : ZMod pr.q) * hu2cast + (w : ZMod pr.q) * hscast
        + (k : ZMod pr.q) * hwcast
    have hmodeq : (u1 + d * u2) % (pr.q : Int) = k % (pr.q : Int) :=
      (ZMod.intCast_eq_intCast_iff _ _ _).mp hcong
    have hNat : (u1.toNat + d.toNat * u2.toNat) % pr.q = k.toNat % pr.q := by
      have h1 : (u1.toNat : Int) = u1 := Int.toNat_of_nonneg hu1n
      have h2 : (u2.toNat : Int) = u2 := Int.toNat_of_nonneg hu2n
      have h3 : (d.toNat : Int) = d := Int.toNat_of_nonneg (by linarith)
      have h4 : (k.toNat : Int) = k := Int.toNat_of_nonneg (le_of_lt hk)
      have h5 := hmodeq
      rw [← h1, ← h2, ← h3, ← h4] at h5
      exact_mod_cast h5
    -- the verification points
    have hQrep : Reps pr Qe (d.toNat • G') := by
      obtain ⟨R2, hR2, hR2r⟩ := MainPy.multiply_point_reps d hGrep
      have h6 : R2 = Qe := by
        have h7 := hR2.symm.trans hQe
        injection h7
      rwa [h6] at hR2r
    obtain ⟨P1, hP1, hP1r⟩ := MainPy.multiply_point_reps u1 hGrep
    obtain ⟨P2, hP2, hP2r⟩ := MainPy.multiply_point_reps u2 hQrep
    obtain ⟨Rp, hRp, hRpr⟩ := curve_point_sum_reps hP1r hP2r
    have hgrp : u1.toNat • G' + u2.toNat • (d.toNat • G') = k.toNat • G' := by
      rw [← mul_nsmul, ← add_nsmul, nsmul_mod_order G' pr.q hqG, hNat,
        ← nsmul_mod_order G' pr.q hqG]
    rw [hgrp, hkG] at hRpr
    cases Rp with
    | none =>
      have h8 : WeierstrassCurve.Affine.Point.some hns = 0 := hRpr
      exact absurd h8 (WeierstrassCurve.Affine.Point.some_ne_zero _)
    | some rpp =>
      obtain ⟨xr, yr⟩ := rpp
      obtain ⟨hxr0, hxr1, hyr0, hyr1, hns2, hRpeq⟩ := hRpr
      rw [WeierstrassCurve.Affine.Point.some.injEq] at hRpeq
      have hxeq : ((xk : Int) : ZMod pr.p) = ((xr : Int) : ZMod pr.p) := hRpeq.1
      have hxkr : xk = xr := zmod_intCast_inj hxk0 hxk1 hxr0 hxr1 hxeq
      unfold MainPy.check_signature
      rw [if_neg (not_not_intro ⟨hr1, hrlt, hs1, hslt⟩)]
      dsimp only
      rw [← hedef, hw]
      dsimp only
      rw [← hu1, ← hu2, hP1]
      simp only [Option.bind_eq_bind, Option.some_bind]
      rw [hP2]
      simp only [Option.some_bind]
      rw [hRp]
      simp only [Option.some_bind]
      dsimp only
      rw [← hxkr, hrdef]
      simp

set_option maxRecDepth 100000 in
/-- Witness for C1: on the toy curve every hypothesis of the roundtrip
theorem holds concretely, and the produced signature verifies. -/
theorem c1_witness :
    MainPy.signAttempt toyParams 3 4 1 = some (some (2, 11)) ∧
    MainPy.check_signature toyParams 3 (2, 11) (some (10, 2)) = some true :=
  ⟨by decide,
    c1_sign_verify_roundtrip toyParams (by decide) (by decide) (by decide) (by decide)
      (by decide) (by decide) (by decide) (by decide) (by decide) (by decide)
      4 1 3 2 11 (by decide) (by decide) (by decide) (some (10, 2)) (by decide)⟩

/-- C9 (amended): `main.py`'s `curve_point_sum` is commutative for a prime
modulus, on arbitrary inputs that are the identity or have reduced
coordinates (they need not lie on the curve).  `main_v6.py`'s `add_points`
is not commutative, see the counterexample. -/
theorem c9_point_addition_commutative (pr : CurveParams) (hp : pr.p.Prime) (P Q : PtM)
    (hP : P = none ∨ ∃ x y, P = some (x, y) ∧
      0 ≤ x ∧ x < (pr.p : Int) ∧ 0 ≤ y ∧ y < (pr.p : Int))
    (hQ : Q = none ∨ ∃ x y, Q = some (x, y) ∧
      0 ≤ x ∧ x < (pr.p : Int) ∧ 0 ≤ y ∧ y < (pr.p : Int)) :
    MainPy.curve_point_sum pr P Q = MainPy.curve_point_sum pr Q P := by
  have hppos : 0 < (pr.p : Int) := by exact_mod_cast hp.pos
  have hpne : (pr.p : Int) ≠ 0 := ne_of_gt hppos
  have hp2 : 2 ≤ (pr.p : Int) := by exact_mod_cast hp.two_le
  rcases hP with rfl | ⟨x1, y1, rfl, hx10, hx11, hy10, hy11⟩
  · rcases hQ with rfl | ⟨x2, y2, rfl, h1, h2, h3, h4⟩
    · rfl
    · rfl
  · rcases hQ with rfl | ⟨x2, y2, rfl, hx20, hx21, hy20, hy21⟩
    · rfl
    · simp only [MainPy.curve_point_sum]
      by_cases hvert : x1 = x2 ∧ (y1 + y2) % (pr.p : Int) = 0
      · have hvert' : x2 = x1 ∧ (y2 + y1) % (pr.p : Int) = 0 :=
          ⟨hvert.1.symm, by rw [add_comm]; exact hvert.2⟩
        rw [if_pos hvert, if_pos hvert']
      · have hvert' : ¬(x2 = x1 ∧ (y2 + y1) % (pr.p : Int) = 0) := fun h =>
          hvert ⟨h.1.symm, by rw [add_comm]; exact h.2⟩
        rw [if_neg hvert, if_neg hvert']
        by_cases heqpt : (x1, y1) = (x2, y2)
        · have hx : x1 = x2 := congrArg Prod.fst heqpt
          have hy : y1 = y2 := congrArg Prod.snd heqpt
          subst hx
          subst hy
          rfl
        · have heqpt' : ¬((x2, y2) = (x1, y1)) := fun h => heqpt h.symm
          rw [if_neg heqpt, if_neg heqpt']
          by_cases hxx : x2 - x1 = 0
          · have h1 : x1 - x2 = 0 := by omega
            rw [hxx, h1]
            rfl
          · have hxx' : x1 - x2 ≠ 0 := by omega
            have hgcd : Int.gcd (x2 - x1) (pr.p : Int) = 1 :=
              int_gcd_prime_of_not_dvd hp (fun hdvd =>
                hxx (int_eq_zero_of_dvd_of_lt hdvd (by omega) (by omega)))
            have hgcd' : Int.gcd (x1 - x2) (pr.p : Int) = 1 :=
              int_gcd_prime_of_not_dvd hp (fun hdvd =>
                hxx' (int_eq_zero_of_dvd_of_lt hdvd (by omega) (by omega)))
            obtain ⟨i, hi, hi0, hi1, hinv⟩ :=
              MainPy.inverse_modulo_spec (x2 - x1) (pr.p : Int) hp2 hgcd
            obtain ⟨i', hi', hi'0, hi'1, hinv'⟩ :=
              MainPy.inverse_modulo_spec (x1 - x2) (pr.p : Int) hp2 hgcd'
            rw [hi, hi']
            dsimp only [Option.map]
            set g : Int := (y2 - y1) * i % (pr.p : Int) with hgdef
            set g' : Int := (y1 - y2) * i' % (pr.p : Int) with hgqdef
            set A : Int := (g' * g' - x2 - x1) % (pr.p : Int) with hAdef
            have hIz : ((x2 : ZMod pr.p) - (x1 : ZMod pr.p)) * ((i : Int) : ZMod pr.p) = 1 := by
              have h : (((x2 - x1) * i % (pr.p : Int) : Int) : ZMod pr.p)
                  = ((1 : Int) : ZMod pr.p) := by rw [hinv]
              rw [zmod_intCast_emod] at h
              push_cast at h
              linear_combination h
            have hI'z : ((x1 : ZMod pr.p) - (x2 : ZMod pr.p)) * ((i' : Int) : ZMod pr.p) = 1 := by
              have h : (((x1 - x2) * i' % (pr.p : Int) : Int) : ZMod pr.p)
                  = ((1 : Int) : ZMod pr.p) := by rw [hinv']
              rw [zmod_intCast_emod] at h
              push_cast at h
              linear_combination h
            have hgZ : ((g : Int) : ZMod pr.p)
                = ((y2 : ZMod pr.p) - (y1 : ZMod pr.p)) * ((i : Int) : ZMod pr.p) := by
              rw [hgdef, zmod_intCast_emod]
              push_cast
              ring
            have hg'Z : ((g' : Int) : ZMod pr.p)
                = ((y1 : ZMod pr.p) - (y2 : ZMod pr.p)) * ((i' : Int) : ZMod pr.p) := by
              rw [hgqdef, zmod_intCast_emod]
              push_cast
              ring
            have hii' : ((i' : Int) : ZMod pr.p) = -((i : Int) : ZMod pr.p) := by
              linear_combination (-((i' : Int) : ZMod pr.p)) * hIz
                + (-((i : Int) : ZMod pr.p)) * hI'z
            have hg : g = g' := by
              apply zmod_intCast_inj (by rw [hgdef]; exact Int.emod_nonneg _ hpne)
                (by rw [hgdef]; exact Int.emod_lt_of_pos _ hppos)
                (by rw [hgqdef]; exact Int.emod_nonneg _ hpne)
                (by rw [hgqdef]; exact Int.emod_lt_of_pos _ hppos)
              rw [hgZ, hg'Z, hii']
              ring
            have hA : (g * g - x1 - x2) % (pr.p : Int) = A := by
              rw [hg, hAdef]
              have h : g' * g' - x1 - x2 = g' * g' - x2 - x1 := by ring
              rw [h]
            have hB : (g * (x1 - A) - y1) % (pr.p : Int)
                = (g' * (x2 - A) - y2) % (pr.p : Int) := by
              rw [hg]
              apply zmod_intCast_inj (Int.emod_nonneg _ hpne) (Int.emod_lt_of_pos _ hppos)
                (Int.emod_nonneg _ hpne) (Int.emod_lt_of_pos _ hppos)
              rw [zmod_intCast_emod, zmod_intCast_emod]
              push_cast
              linear_combination ((y1 : ZMod pr.p) - (y2 : ZMod pr.p)) * hI'z
                + ((x1 : ZMod pr.p) - (x2 : ZMod pr.p)) * hg'Z
            rw [hA, hB]

/-- Witness for C9's amended commutativity statement on the toy curve. -/
theorem c9_comm_witness :
    MainPy.curve_point_sum toyParams (some (2, 7)) (some (5, 2))
      = MainPy.curve_point_sum toyParams (some (5, 2)) (some (2, 7)) :=
  c9_point_addition_commutative toyParams (by decide) (some (2, 7)) (some (5, 2))
    (Or.inr ⟨2, 7, rfl, by decide, by decide, by decide, by decide⟩)
    (Or.inr ⟨5, 2, rfl, by decide, by decide, by decide, by decide⟩)

/-- C4 (amended): the base points of `main.py` and `main1.py` satisfy their
curve equations, but the base points configured in
`main_v2.py`/`main_v3.py`/`main_v4.py` (shared parameters), `main_v5.py` and
`main_v6.py` do not satisfy their curve equations, so the claimed invariant
fails for those parameter sets.  (On the toy parameter bundle the full
invariant — base point on the curve and `q·G = Identity` under `main.py`'s
own arithmetic — is checked by evaluation.) -/
theorem c4_base_point_validity :
    GostB.is_on_curve mainParams mainParams.G.1 mainParams.G.2 = true ∧
    GostB.is_on_curve main1Params main1Params.G.1 main1Params.G.2 = true ∧
    GostB.is_on_curve v2Params v2Params.G.1 v2Params.G.2 = false ∧
    GostB.is_on_curve v5Params v5Params.G.1 v5Params.G.2 = false ∧
    ¬((v6Params.G.2 * v6Params.G.2) % (v6Params.p : Int)
      = (v6Params.G.1 * v6Params.G.1 * v6Params.G.1
        + v6Params.a * v6Params.G.1 + v6Params.b) % (v6Params.p : Int)) ∧
    (GostB.is_on_curve toyParams toyParams.G.1 toyParams.G.2 = true ∧
      MainPy.multiply_point toyParams (toyParams.q : Int) (some toyParams.G) = some none) := by
  exact ⟨by decide, by decide, by decide, by decide, by decide, by decide, by decide⟩
